import Mathlib

/-!
Verification development for the FCApy core: interval pattern structures
(`fcapy/mvcontext/pattern_structure.py`), multi-valued contexts
(`fcapy/mvcontext/mvcontext.py`) and decision-lattice predictors
(`fcapy/ml/decision_lattice.py`).

The Python code works on plain numbers (with `math.inf` used as interval
bounds) and on duck-typed descriptions that are either a scalar (point) or a
pair (closed range).  The embedding makes those explicit:
* `IVal` is a number extended with the two infinities;
* `IDesc` is the tagged union of point and range descriptions;
* raw object data is a `List ℚ` of finite values;
* a Python `None` description is `Option.none`;
* Python exceptions become `Except`/`Option` error results.
-/

deriving instance DecidableEq for Except

/-- An interval bound value: a rational or one of the two infinities
(`-math.inf` / `math.inf` in the source). -/
inductive IVal where
  | ninf : IVal
  | fin (q : ℚ) : IVal
  | pinf : IVal
deriving DecidableEq, Repr

/-- The total order `<=` that Python applies to interval bounds. -/
def IVal.le : IVal → IVal → Prop
  | .ninf, _ => True
  | .fin _, .ninf => False
  | .fin a, .fin b => a ≤ b
  | .fin _, .pinf => True
  | .pinf, .pinf => True
  | .pinf, _ => False

instance IVal.decLe : (a b : IVal) → Decidable (IVal.le a b)
  | .ninf, _ => isTrue trivial
  | .fin _, .ninf => isFalse (fun h => h)
  | .fin a, .fin b => inferInstanceAs (Decidable (a ≤ b))
  | .fin _, .pinf => isTrue trivial
  | .pinf, .pinf => isTrue trivial
  | .pinf, .ninf => isFalse (fun h => h)
  | .pinf, .fin _ => isFalse (fun h => h)

/-- Binary maximum on bounds (the value Python's `max` accumulates). -/
def IVal.max (a b : IVal) : IVal := if IVal.le a b then b else a

/-- Binary minimum on bounds (the value Python's `min` accumulates). -/
def IVal.min (a b : IVal) : IVal := if IVal.le a b then a else b

/-- An interval description: the source passes around either a scalar
(point) or a pair (closed range); we model the two shapes as a tagged
union. -/
inductive IDesc where
  | point (p : IVal) : IDesc
  | range (lo hi : IVal) : IDesc
deriving DecidableEq, Repr

/-- Bound pair of a description.  This is the normalization the source
performs with `isinstance` checks: a point `d` behaves as the pair
`(d, d)`. -/
def IDesc.bounds : IDesc → IVal × IVal
  | .point p => (p, p)
  | .range lo hi => (lo, hi)

/-- Failure modes of `IntervalPS.generators_to_description`:
`indexError` models the Python `IndexError` raised by `generators[0]`
on an empty generator list, `inconsistent` models the `AssertionError`
for inverted aggregated bounds. -/
inductive GenError where
  | indexError : GenError
  | inconsistent : GenError
deriving DecidableEq, Repr

/-- Python's `max` over a list of bounds (`None`, i.e. an exception, on the
empty list). -/
def listMax : List IVal → Option IVal
  | [] => none
  | x :: xs => some (xs.foldl IVal.max x)

/-- Python's `min` over a list of bounds. -/
def listMin : List IVal → Option IVal
  | [] => none
  | x :: xs => some (xs.foldl IVal.min x)

/-- An interval pattern structure: one attribute's name and its per-object
raw values (class `IntervalPS` state from `AbstractPS.__init__`). -/
structure IntervalPS where
  name : String
  data : List ℚ
deriving DecidableEq, Repr

/-- The accumulator update of the running min/max scan in
`IntervalPS.intention_i` (`min_ = v if v < min_ else min_`,
`max_ = v if v > max_ else max_`). -/
def minmaxStep (data : List ℚ) (mm : ℚ × ℚ) (g_i : ℕ) : ℚ × ℚ :=
  let v := data.getD g_i 0
  (if v < mm.1 then v else mm.1, if mm.2 < v then v else mm.2)

/-- `IntervalPS.intention_i`: running min/max over the selected values;
returns the `None` sentinel for an empty index list, a point when the two
coincide, otherwise the range. -/
def IntervalPS.intention_i (ps : IntervalPS) (object_indexes : List ℕ) : Option IDesc :=
  match object_indexes with
  | [] => none
  | g0 :: rest =>
    let v0 := ps.data.getD g0 0
    let mm := rest.foldl (minmaxStep ps.data) (v0, v0)
    if mm.1 = mm.2 then some (IDesc.point (IVal.fin mm.1))
    else some (IDesc.range (IVal.fin mm.1) (IVal.fin mm.2))

/-- `IntervalPS.extension_i`: indices (in ascending order, as produced by
`enumerate`) of the objects whose value lies in the closed interval; the
`None` description yields the empty list. -/
def IntervalPS.extension_i (ps : IntervalPS) (description : Option IDesc) : List ℕ :=
  match description with
  | none => []
  | some d =>
    (List.range ps.data.length).filter
      (fun g_i => IVal.le d.bounds.1 (IVal.fin (ps.data.getD g_i 0)) ∧
                  IVal.le (IVal.fin (ps.data.getD g_i 0)) d.bounds.2)

/-- `IntervalPS.description_to_generators`: the two one-sided relaxations
`[(-inf, max), (min, inf)]` of a description (a point `d` being first
normalized to `(d, d)`). -/
def IntervalPS.description_to_generators (description : IDesc) : List IDesc :=
  [IDesc.range IVal.ninf description.bounds.2,
   IDesc.range description.bounds.1 IVal.pinf]

/-- The list of lower bounds of a generator list — row `generators[0]`
of the source's `zip(*generators)` transpose. -/
def genLowers (generators : List IDesc) : List IVal :=
  generators.map (fun gen => gen.bounds.1)

/-- The list of upper bounds of a generator list — row `generators[1]`
of the source's `zip(*generators)` transpose. -/
def genUppers (generators : List IDesc) : List IVal :=
  generators.map (fun gen => gen.bounds.2)

/-- `IntervalPS.generators_to_description`: aggregates a generator list to
`(max of lower bounds, min of upper bounds)`; on the empty list the source
raises `IndexError` (`generators[0]`), on inverted aggregated bounds it
raises `AssertionError`, and it collapses an equal-bound pair to a point. -/
def IntervalPS.generators_to_description (generators : List IDesc) : Except GenError IDesc :=
  match listMax (genLowers generators), listMin (genUppers generators) with
  | some lo, some hi =>
    if IVal.le lo hi then
      if lo = hi then Except.ok (IDesc.point lo) else Except.ok (IDesc.range lo hi)
    else Except.error GenError.inconsistent
  | _, _ => Except.error GenError.indexError

/-! ### Order lemmas for interval bounds -/

@[simp]
theorem IVal.ninf_le (a : IVal) : IVal.le IVal.ninf a := trivial

@[simp]
theorem IVal.le_pinf (a : IVal) : IVal.le a IVal.pinf := by cases a <;> trivial

@[simp]
theorem IVal.fin_le_fin {a b : ℚ} : IVal.le (IVal.fin a) (IVal.fin b) ↔ a ≤ b := Iff.rfl

theorem IVal.le_refl (a : IVal) : IVal.le a a := by
  cases a <;> simp [IVal.le]

theorem IVal.le_trans {a b c : IVal} (hab : IVal.le a b) (hbc : IVal.le b c) :
    IVal.le a c := by
  cases a <;> cases b <;> cases c <;>
    simp only [IVal.le] at hab hbc ⊢ <;>
    first
      | trivial
      | exact hab.elim
      | exact hbc.elim
      | exact hab.trans hbc

theorem IVal.le_total (a b : IVal) : IVal.le a b ∨ IVal.le b a := by
  cases a <;> cases b <;> simp only [IVal.le] <;>
    first
      | exact Or.inl trivial
      | exact Or.inr trivial
      | exact LinearOrder.le_total _ _

theorem IVal.le_max_left (a b : IVal) : IVal.le a (IVal.max a b) := by
  unfold IVal.max; split
  · assumption
  · exact IVal.le_refl a

theorem IVal.le_max_right (a b : IVal) : IVal.le b (IVal.max a b) := by
  unfold IVal.max; split
  · exact IVal.le_refl b
  · next h => exact (IVal.le_total a b).resolve_left h

theorem IVal.max_choice (a b : IVal) : IVal.max a b = a ∨ IVal.max a b = b := by
  unfold IVal.max; split
  · exact Or.inr rfl
  · exact Or.inl rfl

theorem IVal.min_le_left (a b : IVal) : IVal.le (IVal.min a b) a := by
  unfold IVal.min; split
  · exact IVal.le_refl a
  · next h => exact (IVal.le_total a b).resolve_left h

theorem IVal.min_le_right (a b : IVal) : IVal.le (IVal.min a b) b := by
  unfold IVal.min; split
  · assumption
  · exact IVal.le_refl b

theorem IVal.min_choice (a b : IVal) : IVal.min a b = a ∨ IVal.min a b = b := by
  unfold IVal.min; split
  · exact Or.inl rfl
  · exact Or.inr rfl

@[simp]
theorem IVal.max_ninf_left (a : IVal) : IVal.max IVal.ninf a = a := by
  unfold IVal.max; rw [if_pos (IVal.ninf_le a)]

@[simp]
theorem IVal.min_pinf_right (a : IVal) : IVal.min a IVal.pinf = a := by
  unfold IVal.min; rw [if_pos (IVal.le_pinf a)]

/-! ### Folded maxima and minima -/

theorem foldl_max_le_init : ∀ (xs : List IVal) (a : IVal),
    IVal.le a (xs.foldl IVal.max a)
  | [], a => IVal.le_refl a
  | x :: xs, a =>
    IVal.le_trans (IVal.le_max_left a x) (foldl_max_le_init xs (IVal.max a x))

theorem foldl_max_le_mem (xs : List IVal) (a y : IVal) (h : y ∈ xs) :
    IVal.le y (xs.foldl IVal.max a) := by
  induction xs generalizing a with
  | nil => cases h
  | cons x xs ih =>
    rcases List.mem_cons.mp h with rfl | hmem
    · exact IVal.le_trans (IVal.le_max_right a y) (foldl_max_le_init xs (IVal.max a y))
    · exact ih (IVal.max a x) hmem

theorem foldl_max_mem (xs : List IVal) (a : IVal) :
    xs.foldl IVal.max a = a ∨ xs.foldl IVal.max a ∈ xs := by
  induction xs generalizing a with
  | nil => exact Or.inl rfl
  | cons x xs ih =>
    simp only [List.foldl_cons]
    rcases ih (IVal.max a x) with h | h
    · rcases IVal.max_choice a x with h2 | h2
      · exact Or.inl (h.trans h2)
      · exact Or.inr (List.mem_cons.mpr (Or.inl (h.trans h2)))
    · exact Or.inr (List.mem_cons_of_mem x h)

theorem foldl_min_le_init : ∀ (xs : List IVal) (a : IVal),
    IVal.le (xs.foldl IVal.min a) a
  | [], a => IVal.le_refl a
  | x :: xs, a =>
    IVal.le_trans (foldl_min_le_init xs (IVal.min a x)) (IVal.min_le_left a x)

theorem foldl_min_le_mem (xs : List IVal) (a y : IVal) (h : y ∈ xs) :
    IVal.le (xs.foldl IVal.min a) y := by
  induction xs generalizing a with
  | nil => cases h
  | cons x xs ih =>
    rcases List.mem_cons.mp h with rfl | hmem
    · exact IVal.le_trans (foldl_min_le_init xs (IVal.min a y)) (IVal.min_le_right a y)
    · exact ih (IVal.min a x) hmem

theorem foldl_min_mem (xs : List IVal) (a : IVal) :
    xs.foldl IVal.min a = a ∨ xs.foldl IVal.min a ∈ xs := by
  induction xs generalizing a with
  | nil => exact Or.inl rfl
  | cons x xs ih =>
    simp only [List.foldl_cons]
    rcases ih (IVal.min a x) with h | h
    · rcases IVal.min_choice a x with h2 | h2
      · exact Or.inl (h.trans h2)
      · exact Or.inr (List.mem_cons.mpr (Or.inl (h.trans h2)))
    · exact Or.inr (List.mem_cons_of_mem x h)

theorem listMax_spec (l : List IVal) (L : IVal) (h : listMax l = some L) :
    L ∈ l ∧ ∀ y ∈ l, IVal.le y L := by
  match l with
  | x :: xs =>
    have hL : xs.foldl IVal.max x = L := Option.some.inj h
    subst hL
    refine ⟨?_, ?_⟩
    · rcases foldl_max_mem xs x with h2 | h2
      · rw [h2]; exact List.mem_cons_self x xs
      · exact List.mem_cons_of_mem x h2
    · intro y hy
      rcases List.mem_cons.mp hy with rfl | hmem
      · exact foldl_max_le_init xs y
      · exact foldl_max_le_mem xs x y hmem

theorem listMin_spec (l : List IVal) (U : IVal) (h : listMin l = some U) :
    U ∈ l ∧ ∀ y ∈ l, IVal.le U y := by
  match l with
  | x :: xs =>
    have hU : xs.foldl IVal.min x = U := Option.some.inj h
    subst hU
    refine ⟨?_, ?_⟩
    · rcases foldl_min_mem xs x with h2 | h2
      · rw [h2]; exact List.mem_cons_self x xs
      · exact List.mem_cons_of_mem x h2
    · intro y hy
      rcases List.mem_cons.mp hy with rfl | hmem
      · exact foldl_min_le_init xs y
      · exact foldl_min_le_mem xs x y hmem

/-- Evaluation of `generators_to_description` once the two aggregated
bounds are known. -/
theorem generators_to_description_eval (gens : List IDesc) (L U : IVal)
    (hL : listMax (genLowers gens) = some L) (hU : listMin (genUppers gens) = some U) :
    IntervalPS.generators_to_description gens =
      (if IVal.le L U then
        (if L = U then Except.ok (IDesc.point L) else Except.ok (IDesc.range L U))
      else Except.error GenError.inconsistent) := by
  unfold IntervalPS.generators_to_description
  rw [hL, hU]

/-! ### Running min/max bounds for `intention_i` -/

theorem foldl_minmax_le_init (data : List ℚ) :
    ∀ (l : List ℕ) (a b : ℚ),
      (l.foldl (minmaxStep data) (a, b)).1 ≤ a ∧ b ≤ (l.foldl (minmaxStep data) (a, b)).2 := by
  intro l
  induction l with
  | nil => intro a b; exact ⟨le_refl a, le_refl b⟩
  | cons x xs ih =>
    intro a b
    simp only [List.foldl_cons]
    have hstep : (minmaxStep data (a, b) x).1 ≤ a ∧ b ≤ (minmaxStep data (a, b) x).2 := by
      unfold minmaxStep
      constructor
      · dsimp only
        split
        · next h => exact le_of_lt h
        · exact le_refl a
      · dsimp only
        split
        · next h => exact le_of_lt h
        · exact le_refl b
    obtain ⟨h1, h2⟩ := ih (minmaxStep data (a, b) x).1 (minmaxStep data (a, b) x).2
    exact ⟨le_trans h1 hstep.1, le_trans hstep.2 h2⟩

theorem foldl_minmax_mem_bounds (data : List ℚ) :
    ∀ (l : List ℕ) (a b : ℚ) (g : ℕ), g ∈ l →
      (l.foldl (minmaxStep data) (a, b)).1 ≤ data.getD g 0 ∧
      data.getD g 0 ≤ (l.foldl (minmaxStep data) (a, b)).2 := by
  intro l
  induction l with
  | nil => intro a b g h; cases h
  | cons x xs ih =>
    intro a b g h
    simp only [List.foldl_cons]
    rcases List.mem_cons.mp h with rfl | hmem
    · have hstep : (minmaxStep data (a, b) g).1 ≤ data.getD g 0 ∧
          data.getD g 0 ≤ (minmaxStep data (a, b) g).2 := by
        unfold minmaxStep
        constructor
        · dsimp only
          split
          · exact le_refl _
          · next h2 => exact le_of_not_lt h2
        · dsimp only
          split
          · exact le_refl _
          · next h2 => exact le_of_not_lt h2
      obtain ⟨h1, h2⟩ := foldl_minmax_le_init data xs (minmaxStep data (a, b) g).1
        (minmaxStep data (a, b) g).2
      exact ⟨le_trans h1 hstep.1, le_trans hstep.2 h2⟩
    · exact ih (minmaxStep data (a, b) x).1 (minmaxStep data (a, b) x).2 g hmem

/-! ### Claims about the interval pattern structure -/

/-- C8: `IntervalPS.intention_i` on an empty index set returns the explicit
`None` sentinel instead of failing, and `IntervalPS.extension_i` on that
sentinel returns the empty index list. -/
theorem claim_C8_empty_sentinel (ps : IntervalPS) :
    ps.intention_i [] = none ∧ ps.extension_i none = [] :=
  ⟨rfl, rfl⟩

/-- C9: `IntervalPS.extension_i` always returns strictly ascending,
duplicate-free indices, and it normalizes a point description `p` to the
closed interval `[p, p]`. -/
theorem claim_C9_extension_sorted (ps : IntervalPS) (d : Option IDesc) (p : IVal) :
    List.Sorted (· < ·) (ps.extension_i d) ∧ (ps.extension_i d).Nodup ∧
    ps.extension_i (some (IDesc.point p)) = ps.extension_i (some (IDesc.range p p)) := by
  have hsorted : List.Sorted (· < ·) (ps.extension_i d) := by
    cases d with
    | none => exact List.sorted_nil
    | some desc => exact (List.pairwise_lt_range ps.data.length).filter _
  exact ⟨hsorted, hsorted.imp LT.lt.ne, rfl⟩

/-- C10: `IntervalPS.generators_to_description` on an empty generator list
fails with the out-of-range indexing error (from `generators[0]`), which is
distinct from the inconsistent-generators error raised for inverted
bounds. -/
theorem claim_C10_empty_generators_index_error :
    IntervalPS.generators_to_description [] = Except.error GenError.indexError ∧
    GenError.indexError ≠ GenError.inconsistent :=
  ⟨rfl, by decide⟩

/-- C2 counterexample: the degenerate range `(5, 5)` has `min ≤ max`, yet
its generator round trip collapses to the point `5`, so
`generators_to_description` does not return the original range. -/
theorem claim_C2_counterexample :
    IVal.le (IVal.fin 5) (IVal.fin 5) ∧
    IntervalPS.generators_to_description
        (IntervalPS.description_to_generators (IDesc.range (IVal.fin 5) (IVal.fin 5))) =
      Except.ok (IDesc.point (IVal.fin 5)) ∧
    IntervalPS.generators_to_description
        (IntervalPS.description_to_generators (IDesc.range (IVal.fin 5) (IVal.fin 5))) ≠
      Except.ok (IDesc.range (IVal.fin 5) (IVal.fin 5)) :=
  ⟨by decide, by decide, by decide⟩

/-- Round trip of a range description through
`description_to_generators` and `generators_to_description`. -/
theorem roundtrip_range_eval (lo hi : IVal) :
    IntervalPS.generators_to_description
        (IntervalPS.description_to_generators (IDesc.range lo hi)) =
      (if IVal.le lo hi then
        (if lo = hi then Except.ok (IDesc.point lo) else Except.ok (IDesc.range lo hi))
      else Except.error GenError.inconsistent) := by
  have hL : listMax (genLowers (IntervalPS.description_to_generators (IDesc.range lo hi))) =
      some lo := by
    simp [IntervalPS.description_to_generators, genLowers, IDesc.bounds, listMax]
  have hU : listMin (genUppers (IntervalPS.description_to_generators (IDesc.range lo hi))) =
      some hi := by
    simp [IntervalPS.description_to_generators, genUppers, IDesc.bounds, listMin]
  exact generators_to_description_eval _ lo hi hL hU

/-- C2 (amended): the generator round trip restores a point description and
a proper range (`min < max`) exactly; a degenerate range (`min = max`)
round-trips to the corresponding point instead of the range itself. -/
theorem claim_C2_roundtrip_amended (p v lo hi : IVal)
    (hle : IVal.le lo hi) (hne : lo ≠ hi) :
    IntervalPS.generators_to_description
        (IntervalPS.description_to_generators (IDesc.point p)) =
      Except.ok (IDesc.point p) ∧
    IntervalPS.generators_to_description
        (IntervalPS.description_to_generators (IDesc.range lo hi)) =
      Except.ok (IDesc.range lo hi) ∧
    IntervalPS.generators_to_description
        (IntervalPS.description_to_generators (IDesc.range v v)) =
      Except.ok (IDesc.point v) := by
  refine ⟨?_, ?_, ?_⟩
  · have h : IntervalPS.description_to_generators (IDesc.point p) =
        IntervalPS.description_to_generators (IDesc.range p p) := rfl
    rw [h, roundtrip_range_eval, if_pos (IVal.le_refl p), if_pos rfl]
  · rw [roundtrip_range_eval, if_pos hle, if_neg hne]
  · rw [roundtrip_range_eval, if_pos (IVal.le_refl v), if_pos rfl]

theorem claim_C2_roundtrip_amended_witness :
    IntervalPS.generators_to_description
        (IntervalPS.description_to_generators (IDesc.point (IVal.fin 7))) =
      Except.ok (IDesc.point (IVal.fin 7)) ∧
    IntervalPS.generators_to_description
        (IntervalPS.description_to_generators (IDesc.range (IVal.fin 1) (IVal.fin 3))) =
      Except.ok (IDesc.range (IVal.fin 1) (IVal.fin 3)) ∧
    IntervalPS.generators_to_description
        (IntervalPS.description_to_generators (IDesc.range (IVal.fin 5) (IVal.fin 5))) =
      Except.ok (IDesc.point (IVal.fin 5)) :=
  claim_C2_roundtrip_amended (IVal.fin 7) (IVal.fin 5) (IVal.fin 1) (IVal.fin 3)
    (by decide) (by decide)

/-- C5: on a non-empty generator list, the aggregated bounds are the
maximum of the lower bounds and the minimum of the upper bounds; the call
fails with the inconsistency error exactly when the aggregated lower bound
exceeds the upper bound, and otherwise returns the range, collapsed to a
point when the bounds agree. -/
theorem claim_C5_generator_aggregation (g : IDesc) (gs : List IDesc) (L U : IVal)
    (hL : listMax (genLowers (g :: gs)) = some L)
    (hU : listMin (genUppers (g :: gs)) = some U) :
    (L ∈ genLowers (g :: gs) ∧ ∀ x ∈ genLowers (g :: gs), IVal.le x L) ∧
    (U ∈ genUppers (g :: gs) ∧ ∀ x ∈ genUppers (g :: gs), IVal.le U x) ∧
    (IntervalPS.generators_to_description (g :: gs) =
        Except.error GenError.inconsistent ↔ ¬ IVal.le L U) ∧
    (IVal.le L U →
      IntervalPS.generators_to_description (g :: gs) =
        (if L = U then Except.ok (IDesc.point L) else Except.ok (IDesc.range L U))) := by
  refine ⟨listMax_spec _ _ hL, listMin_spec _ _ hU, ?_, ?_⟩
  · rw [generators_to_description_eval _ L U hL hU]
    split_ifs with h1 h2 <;> simp [h1]
  · intro h
    rw [generators_to_description_eval _ L U hL hU, if_pos h]

theorem claim_C5_generator_aggregation_witness :
    IntervalPS.generators_to_description
        [IDesc.range IVal.ninf (IVal.fin 2), IDesc.range (IVal.fin 5) IVal.pinf] =
      Except.error GenError.inconsistent :=
  ((claim_C5_generator_aggregation (IDesc.range IVal.ninf (IVal.fin 2))
      [IDesc.range (IVal.fin 5) IVal.pinf] (IVal.fin 5) (IVal.fin 2)
      (by decide) (by decide)).2.2.1).mpr (by decide)

/-- C3: for a non-empty list of valid object indices, every index of the
list belongs to the extension of its intention (Galois closure of the
interval pattern structure). -/
theorem claim_C3_galois_closure (ps : IntervalPS) (idxs : List ℕ)
    (hne : idxs ≠ []) (hvalid : ∀ g ∈ idxs, g < ps.data.length) :
    ∀ g ∈ idxs, g ∈ ps.extension_i (ps.intention_i idxs) := by
  intro g hg
  cases idxs with
  | nil => exact absurd rfl hne
  | cons g0 rest =>
    have hb : (rest.foldl (minmaxStep ps.data)
          (ps.data.getD g0 0, ps.data.getD g0 0)).1 ≤ ps.data.getD g 0 ∧
        ps.data.getD g 0 ≤ (rest.foldl (minmaxStep ps.data)
          (ps.data.getD g0 0, ps.data.getD g0 0)).2 := by
      rcases List.mem_cons.mp hg with rfl | hmem
      · exact foldl_minmax_le_init ps.data rest (ps.data.getD g 0) (ps.data.getD g 0)
      · exact foldl_minmax_mem_bounds ps.data rest (ps.data.getD g0 0)
          (ps.data.getD g0 0) g hmem
    unfold IntervalPS.intention_i
    dsimp only
    split
    · next heq =>
      unfold IntervalPS.extension_i
      simp only [IDesc.bounds, List.mem_filter, List.mem_range,
        decide_eq_true_eq, IVal.fin_le_fin]
      exact ⟨hvalid g hg, hb.1, heq ▸ hb.2⟩
    · unfold IntervalPS.extension_i
      simp only [IDesc.bounds, List.mem_filter, List.mem_range,
        decide_eq_true_eq, IVal.fin_le_fin]
      exact ⟨hvalid g hg, hb.1, hb.2⟩

theorem claim_C3_galois_closure_witness :
    (0 : ℕ) ∈ IntervalPS.extension_i ⟨"m", [1, 5, 10]⟩
      (IntervalPS.intention_i ⟨"m", [1, 5, 10]⟩ [0, 1]) :=
  claim_C3_galois_closure ⟨"m", [1, 5, 10]⟩ [0, 1] (by decide) (by decide) 0 (by decide)

/-! ### Multi-valued contexts -/

/-- A multi-valued context (`MVContext.__init__` state): object count
`_n_objects`, object names, and the ordered pattern structures assembled
from the data columns. -/
structure MVContext where
  n_objects : ℕ
  object_names : List String
  pattern_structures : List IntervalPS
deriving DecidableEq, Repr

/-- `MVContext.extension_i`: starts from the full object set
`set(range(n_objects))`, intersects with each listed pattern structure's
extension, and returns the sorted result. -/
def MVContext.extension_i (ctx : MVContext)
    (descriptions_i : List (ℕ × Option IDesc)) : List ℕ :=
  (descriptions_i.foldl
    (fun extent pd =>
      extent ∩ ((ctx.pattern_structures.getD pd.1 ⟨"", []⟩).extension_i pd.2).toFinset)
    (Finset.range ctx.n_objects)).sort (· ≤ ·)

/-- `MVContext.extension`: resolves attribute names to pattern-structure
indices, delegates to `extension_i`, and maps the resulting object indices
to object names. -/
def MVContext.extension (ctx : MVContext)
    (descriptions : List (String × Option IDesc)) : List String :=
  (ctx.extension_i (descriptions.map
      (fun nd => (ctx.pattern_structures.findIdx (fun ps => ps.name = nd.1), nd.2)))).map
    (fun g_i => ctx.object_names.getD g_i "")

theorem list_toFinset_map (l : List ℕ) (f : ℕ → String) :
    (l.map f).toFinset = l.toFinset.image f := by
  ext x; simp

theorem map_getD_range (names : List String) (n : ℕ) (hlen : names.length = n) :
    (List.range n).map (fun g_i => names.getD g_i "") = names := by
  apply List.ext_getElem
  · simp [hlen]
  · intro i h1 h2
    simp only [List.getElem_map, List.getElem_range]
    exact List.getD_eq_getElem names "" h2

/-- C4: the extension of a two-attribute description set is the
intersection of the single-attribute extensions (as object names), and the
extension of the empty description set is the full object-name list. -/
theorem claim_C4_conjunctive_extension (ctx : MVContext) (A B : String)
    (a b : Option IDesc)
    (hlen : ctx.object_names.length = ctx.n_objects)
    (hnodup : ctx.object_names.Nodup)
    (hA : A ∈ ctx.pattern_structures.map IntervalPS.name)
    (hB : B ∈ ctx.pattern_structures.map IntervalPS.name)
    (hAB : A ≠ B) :
    (ctx.extension [(A, a), (B, b)]).toFinset =
      (ctx.extension [(A, a)]).toFinset ∩ (ctx.extension [(B, b)]).toFinset ∧
    ctx.extension [] = ctx.object_names := by
  constructor
  · set f : ℕ → String := fun g_i => ctx.object_names.getD g_i "" with hf
    set iA := ctx.pattern_structures.findIdx (fun ps => ps.name = A) with hiA
    set iB := ctx.pattern_structures.findIdx (fun ps => ps.name = B) with hiB
    set EA := ((ctx.pattern_structures.getD iA ⟨"", []⟩).extension_i a).toFinset with hEA
    set EB := ((ctx.pattern_structures.getD iB ⟨"", []⟩).extension_i b).toFinset with hEB
    have hinj : ∀ s : Finset ℕ, (∀ g ∈ s, g < ctx.n_objects) → Set.InjOn f (s : Set ℕ) := by
      intro s hs g1 h1 g2 h2 heq
      have hg1 : g1 < ctx.object_names.length := hlen ▸ hs g1 h1
      have hg2 : g2 < ctx.object_names.length := hlen ▸ hs g2 h2
      rw [hf] at heq
      simp only [List.getD_eq_getElem ctx.object_names "" hg1,
        List.getD_eq_getElem ctx.object_names "" hg2] at heq
      have hget12 : ctx.object_names.get ⟨g1, hg1⟩ = ctx.object_names.get ⟨g2, hg2⟩ := by
        simpa [List.get_eq_getElem] using heq
      exact congrArg Fin.val (List.nodup_iff_injective_get.mp hnodup hget12)
    have hsub : ((Finset.range ctx.n_objects ∩ EA) ∪
        (Finset.range ctx.n_objects ∩ EB) : Finset ℕ) ⊆ Finset.range ctx.n_objects := by
      intro g hg
      rcases Finset.mem_union.mp hg with h | h
      · exact Finset.mem_of_mem_inter_left h
      · exact Finset.mem_of_mem_inter_left h
    have hinter : (Finset.range ctx.n_objects ∩ EA) ∩ EB =
        (Finset.range ctx.n_objects ∩ EA) ∩ (Finset.range ctx.n_objects ∩ EB) := by
      ext g; simp only [Finset.mem_inter, Finset.mem_range]; tauto
    show ((((Finset.range ctx.n_objects ∩ EA) ∩ EB).sort (· ≤ ·)).map f).toFinset = _
    rw [list_toFinset_map, Finset.sort_toFinset, hinter]
    have himg := Finset.image_inter_of_injOn
      (Finset.range ctx.n_objects ∩ EA) (Finset.range ctx.n_objects ∩ EB)
      (by
        refine Set.InjOn.mono ?_ (hinj ((Finset.range ctx.n_objects ∩ EA) ∪
          (Finset.range ctx.n_objects ∩ EB)) ?_)
        · intro g hg
          simp only [Set.mem_union, Finset.mem_coe] at hg
          exact Finset.mem_coe.mpr (Finset.mem_union.mpr hg)
        · intro g hg
          exact Finset.mem_range.mp (hsub hg))
    rw [himg]
    show _ = ((((Finset.range ctx.n_objects ∩ EA).sort (· ≤ ·)).map f).toFinset ∩
      (((Finset.range ctx.n_objects ∩ EB).sort (· ≤ ·)).map f).toFinset)
    rw [list_toFinset_map, list_toFinset_map, Finset.sort_toFinset, Finset.sort_toFinset]
  · show (((Finset.range ctx.n_objects).sort (· ≤ ·)).map
      (fun g_i => ctx.object_names.getD g_i "")) = _
    rw [Finset.sort_range]
    exact map_getD_range ctx.object_names ctx.n_objects hlen

theorem claim_C4_conjunctive_extension_witness :
    ((MVContext.mk 3 ["x", "y", "z"] [⟨"A", [1, 2, 3]⟩, ⟨"B", [2, 2, 0]⟩]).extension
        [("A", some (IDesc.range (IVal.fin 2) (IVal.fin 3))),
         ("B", some (IDesc.point (IVal.fin 2)))]).toFinset =
      ((MVContext.mk 3 ["x", "y", "z"] [⟨"A", [1, 2, 3]⟩, ⟨"B", [2, 2, 0]⟩]).extension
          [("A", some (IDesc.range (IVal.fin 2) (IVal.fin 3)))]).toFinset ∩
      ((MVContext.mk 3 ["x", "y", "z"] [⟨"A", [1, 2, 3]⟩, ⟨"B", [2, 2, 0]⟩]).extension
          [("B", some (IDesc.point (IVal.fin 2)))]).toFinset ∧
    (MVContext.mk 3 ["x", "y", "z"] [⟨"A", [1, 2, 3]⟩, ⟨"B", [2, 2, 0]⟩]).extension [] =
      ["x", "y", "z"] :=
  claim_C4_conjunctive_extension
    (MVContext.mk 3 ["x", "y", "z"] [⟨"A", [1, 2, 3]⟩, ⟨"B", [2, 2, 0]⟩]) "A" "B"
    (some (IDesc.range (IVal.fin 2) (IVal.fin 3))) (some (IDesc.point (IVal.fin 2)))
    (by decide) (by decide) (by decide) (by decide) (by decide)

/-! ### Decision lattice predictors -/

/-- The value stored in `most_probable_class`: the source keeps the single
class when exactly one attains the maximum and the whole tied list
otherwise. -/
inductive MPClass (α : Type) where
  | single (c : α) : MPClass α
  | tied (cs : List α) : MPClass α
deriving DecidableEq, Repr

/-- The metrics dictionary built by
`DecisionLatticeClassifier.calc_concept_prediction_metrics`. -/
structure ClassifierMetrics (α : Type) where
  class_probabilities : Option (List ℚ)
  most_probable_class : Option (MPClass α)
  maximum_class_probability : Option ℚ
deriving DecidableEq, Repr

/-- Python's `max` over a list of rationals (an exception, modeled as
`none`, on the empty list). -/
def listMaxQ : List ℚ → Option ℚ
  | [] => none
  | x :: xs => some (xs.foldl max x)

/-- The shared maximum/tie-break logic of the classifier: keep the classes
whose probability equals the maximum, collapse to the single class when
exactly one remains (`if len(max_class) == 1: max_class = max_class[0]`).
`none` models the `ValueError` of `max` on an empty probability list. -/
def selectMaxClass {α : Type} (class_names : List α) (class_probs : List ℚ) :
    Option (MPClass α) :=
  match listMaxQ class_probs with
  | none => none
  | some max_prob =>
    let max_class := ((class_names.zip class_probs).filter
      (fun cp => cp.2 = max_prob)).map Prod.fst
    some (match max_class with
      | [c] => MPClass.single c
      | cs => MPClass.tied cs)

/-- `sorted(set(Y))`: the sorted list of distinct observed class labels. -/
def sortedClasses {α : Type} [LinearOrder α] (Y : List α) : List α :=
  Y.toFinset.sort (· ≤ ·)

/-- `calc_class_probability` for a non-empty extent: the number of extent
objects labeled with the class over the extent size. -/
def condProb {α : Type} [DecidableEq α] (Y : List α) (extent_i : List ℕ) (class_ : α) : ℚ :=
  ((extent_i.filter (fun g_i => Y.get? g_i = some class_)).length : ℚ) /
    (extent_i.length : ℚ)

/-- The `class_probs` list computed during fit: one conditional probability
per sorted class. -/
def classProbabilities {α : Type} [LinearOrder α] (Y : List α) (extent_i : List ℕ) :
    List ℚ :=
  (sortedClasses Y).map (condProb Y extent_i)

/-- `DecisionLatticeClassifier.calc_concept_prediction_metrics`: for a
non-empty extent, the per-class probabilities, the max/tie-collapsed most
probable class and the maximum probability; all three `None` otherwise. -/
def DecisionLatticeClassifier.calc_concept_prediction_metrics {α : Type} [LinearOrder α]
    (Y : List α) (extent_i : List ℕ) : ClassifierMetrics α :=
  if 0 < extent_i.length then
    { class_probabilities := some (classProbabilities Y extent_i)
      most_probable_class := selectMaxClass (sortedClasses Y) (classProbabilities Y extent_i)
      maximum_class_probability := listMaxQ (classProbabilities Y extent_i) }
  else ⟨none, none, none⟩

/-- The transpose `zip(*predictions)`: one column per index below the
minimum row length. -/
def zipCols (rows : List (List ℚ)) : List (List ℚ) :=
  (List.range ((rows.map List.length).min?.getD 0)).map
    (fun j => rows.map (fun row => row.getD j 0))

/-- `DecisionLatticeClassifier.average_concepts_class_probabilities`:
per-class mean of the traced concepts' probability vectors (the source's
guard `if len(row) > 0 else None` is kept, though rows produced by `zip`
are never empty). -/
def DecisionLatticeClassifier.average_concepts_class_probabilities
    (predictions : List (List ℚ)) : List (Option ℚ) :=
  (zipCols predictions).map
    (fun row => if 0 < row.length then some (row.sum / (row.length : ℚ)) else none)

/-- `DecisionLatticeClassifier.average_concepts_predictions`: the same
max/tie rule applied to the averaged probability vector; `none` models the
exceptions Python would raise (`max` of an empty list, comparison with an
absent probability). -/
def DecisionLatticeClassifier.average_concepts_predictions {α : Type}
    (class_names : List α) (predictions : List (List ℚ)) : Option (MPClass α) :=
  if (DecisionLatticeClassifier.average_concepts_class_probabilities predictions).all
      Option.isSome then
    selectMaxClass class_names
      (DecisionLatticeClassifier.average_concepts_class_probabilities
        predictions).reduceOption
  else none

/-- Specification form of the tied-class set for a probability vector: the
class names whose probability attains the maximum. -/
def specTiedNames {α : Type} (class_names : List α) (probs : List ℚ) : List α :=
  ((class_names.zip probs).filter (fun cp => some cp.2 = listMaxQ probs)).map Prod.fst

/-- Specification form of the tied-class set computed during fit: the
sorted classes whose conditional probability attains the maximum. -/
def specTiedClasses {α : Type} [LinearOrder α] (Y : List α) (extent_i : List ℕ) :
    List α :=
  (sortedClasses Y).filter
    (fun c => some (condProb Y extent_i c) = listMaxQ (classProbabilities Y extent_i))

/-- Specification form of the averaged probability vector over `k` classes:
entry `j` is the mean of the traced concepts' probabilities for class `j`. -/
def specAvgVector (k : ℕ) (predictions : List (List ℚ)) : List ℚ :=
  (List.range k).map
    (fun j => (predictions.map (fun row => row.getD j 0)).sum / (predictions.length : ℚ))

/-- Failure mode of `DecisionLatticeRegressor.average_concepts_predictions`:
the `TypeError` Python's `sum` raises when a collected `mean_y` is `None`. -/
inductive RegressorError where
  | typeError : RegressorError
deriving DecidableEq, Repr

/-- `DecisionLatticeRegressor.calc_concept_prediction_metrics`: the mean of
the labels over the extent, `None` for an empty extent. -/
def DecisionLatticeRegressor.calc_concept_prediction_metrics
    (Y : List ℚ) (extent_i : List ℕ) : Option ℚ :=
  if 0 < extent_i.length then
    some ((extent_i.map (fun g_i => Y.getD g_i 0)).sum / (extent_i.length : ℚ))
  else none

/-- Python's `sum` over the collected `mean_y` measures: the running sum
starts at `0`, and adding a `None` entry raises `TypeError` (modeled as
`none`). -/
def sumOptionQ : List (Option ℚ) → Option ℚ
  | [] => some 0
  | none :: _ => none
  | some q :: rest => (sumOptionQ rest).map (fun s => q + s)

/-- `DecisionLatticeRegressor.average_concepts_predictions`: `None` (not an
error) for zero traced concepts, otherwise the sum of the `mean_y` values
over their count — raising `TypeError` when any of them is `None`. -/
def DecisionLatticeRegressor.average_concepts_predictions
    (predictions : List (Option ℚ)) : Except RegressorError (Option ℚ) :=
  if 0 < predictions.length then
    match sumOptionQ predictions with
    | some s => Except.ok (some (s / (predictions.length : ℚ)))
    | none => Except.error RegressorError.typeError
  else Except.ok none

/-! ### Claims about the regressor -/

theorem sumOptionQ_of_mem_none (predictions : List (Option ℚ))
    (h : none ∈ predictions) : sumOptionQ predictions = none := by
  induction predictions with
  | nil => cases h
  | cons x xs ih =>
    cases x with
    | none => rfl
    | some q =>
      rcases List.mem_cons.mp h with h2 | h2
      · exact absurd h2 (by simp)
      · show (sumOptionQ xs).map (fun s => q + s) = none
        rw [ih h2]; rfl

theorem sumOptionQ_map_some (qs : List ℚ) : sumOptionQ (qs.map some) = some qs.sum := by
  induction qs with
  | nil => rfl
  | cons q qs ih =>
    show (sumOptionQ (qs.map some)).map (fun s => q + s) = _
    rw [ih, List.sum_cons]; rfl

/-- C1 counterexample: a single traced concept whose `mean_y` is `None`
makes the aggregation raise `TypeError` instead of returning `None`; and
zero traced concepts yield the plain absent value `None`, not a distinct
error. -/
theorem claim_C1_counterexample :
    DecisionLatticeRegressor.average_concepts_predictions [none] =
      Except.error RegressorError.typeError ∧
    DecisionLatticeRegressor.average_concepts_predictions [none] ≠
      Except.ok none ∧
    DecisionLatticeRegressor.average_concepts_predictions [] = Except.ok none :=
  ⟨by decide, by decide, by decide⟩

/-- C1 (amended): the mean over a non-empty extent (and `None` for an empty
one) is propagated; prediction returns the arithmetic mean of the traced
`mean_y` values only when at least one concept is traced and all values are
present; zero traced concepts give the same absent `None` as an empty
extent (not a distinct error); any absent `mean_y` — in particular an
all-`None` list — makes the aggregation fail with a `TypeError`. -/
theorem claim_C1_regressor_amended (Y : List ℚ) (extent_i : List ℕ)
    (predictions : List (Option ℚ)) :
    DecisionLatticeRegressor.calc_concept_prediction_metrics Y [] = none ∧
    (extent_i ≠ [] → DecisionLatticeRegressor.calc_concept_prediction_metrics Y extent_i =
      some ((extent_i.map (fun g_i => Y.getD g_i 0)).sum / (extent_i.length : ℚ))) ∧
    (predictions = [] → DecisionLatticeRegressor.average_concepts_predictions predictions =
      Except.ok none) ∧
    (none ∈ predictions → DecisionLatticeRegressor.average_concepts_predictions predictions =
      Except.error RegressorError.typeError) ∧
    (∀ qs : List ℚ, predictions = qs.map some → qs ≠ [] →
      DecisionLatticeRegressor.average_concepts_predictions predictions =
        Except.ok (some (qs.sum / (qs.length : ℚ)))) := by
  refine ⟨rfl, ?_, ?_, ?_, ?_⟩
  · intro h
    unfold DecisionLatticeRegressor.calc_concept_prediction_metrics
    rw [if_pos (List.length_pos.mpr h)]
  · intro h; subst h; rfl
  · intro h
    unfold DecisionLatticeRegressor.average_concepts_predictions
    rw [if_pos (List.length_pos.mpr (List.ne_nil_of_mem h)), sumOptionQ_of_mem_none _ h]
  · intro qs hq hqs
    subst hq
    unfold DecisionLatticeRegressor.average_concepts_predictions
    rw [if_pos (by simpa using List.length_pos.mpr hqs), sumOptionQ_map_some]
    rw [List.length_map]

theorem claim_C1_regressor_amended_witness :
    DecisionLatticeRegressor.average_concepts_predictions [some 2, some 4] =
      Except.ok (some 3) := by
  have h := (claim_C1_regressor_amended [] [] [some 2, some 4]).2.2.2.2 [2, 4]
    rfl (by decide)
  refine h.trans ?_
  simp only [List.sum_cons, List.sum_nil, List.length_cons, List.length_nil]
  norm_num

/-! ### Counting lemmas for the classifier probabilities -/

theorem sum_map_ite_zero {α : Type} [DecidableEq α] (L : List α) (y : α) (h : y ∉ L) :
    (L.map (fun c => if y = c then (1 : ℕ) else 0)).sum = 0 := by
  induction L with
  | nil => rfl
  | cons x xs ih =>
    simp only [List.map_cons, List.sum_cons]
    rw [if_neg (by intro hyx; exact h (by rw [hyx]; exact List.mem_cons_self x xs)),
      ih (fun h2 => h (List.mem_cons_of_mem x h2))]

theorem sum_map_ite_one {α : Type} [DecidableEq α] (L : List α) (hN : L.Nodup) (y : α)
    (h : y ∈ L) : (L.map (fun c => if y = c then (1 : ℕ) else 0)).sum = 1 := by
  induction L with
  | nil => cases h
  | cons x xs ih =>
    simp only [List.map_cons, List.sum_cons]
    rcases List.mem_cons.mp h with rfl | h2
    · rw [if_pos rfl, sum_map_ite_zero xs y (List.nodup_cons.mp hN).1]
    · rw [if_neg (by rintro rfl; exact (List.nodup_cons.mp hN).1 h2),
        ih (List.nodup_cons.mp hN).2 h2]

theorem sum_map_add_nat {α : Type} (L : List α) (f g : α → ℕ) :
    (L.map (fun c => f c + g c)).sum = (L.map f).sum + (L.map g).sum := by
  induction L with
  | nil => rfl
  | cons x xs ih =>
    simp only [List.map_cons, List.sum_cons, ih]
    omega

/-- Every extent object is labeled with exactly one class of a
duplicate-free class list, so the per-class label counts add up to the
extent size. -/
theorem count_partition {α : Type} [DecidableEq α] (Y : List α) (L : List α) (hN : L.Nodup)
    (extent : List ℕ) (H : ∀ g ∈ extent, ∃ h : g < Y.length, Y[g] ∈ L) :
    (L.map (fun c => (extent.filter (fun g_i => Y.get? g_i = some c)).length)).sum =
      extent.length := by
  induction extent with
  | nil => simp
  | cons g gs ih =>
    obtain ⟨hlt, hYg⟩ := H g (List.mem_cons_self g gs)
    have hget : Y.get? g = some Y[g] := by
      rw [List.get?_eq_getElem?, List.getElem?_eq_getElem hlt]
    have hsplit : ∀ c : α, ((g :: gs).filter (fun g_i => Y.get? g_i = some c)).length =
        (if Y[g] = c then 1 else 0) + (gs.filter (fun g_i => Y.get? g_i = some c)).length := by
      intro c
      rw [List.filter_cons]
      by_cases hc : Y[g] = c
      · rw [if_pos (by rw [hget]; simp [hc])]
        simp only [List.length_cons, if_pos hc]
        omega
      · rw [if_neg (by rw [hget]; simp [hc])]
        simp only [if_neg hc]
        omega
    rw [List.map_congr_left (fun c _ => hsplit c), sum_map_add_nat,
      sum_map_ite_one L hN _ hYg, ih (fun g2 hg2 => H g2 (List.mem_cons_of_mem g hg2))]
    simp only [List.length_cons]
    omega

/-- The classifier's conditional probabilities over a non-empty extent of
valid indices sum to one. -/
theorem classProbabilities_sum {α : Type} [LinearOrder α] (Y : List α) (extent_i : List ℕ)
    (hext : extent_i ≠ []) (hvalid : ∀ g ∈ extent_i, g < Y.length) :
    (classProbabilities Y extent_i).sum = 1 := by
  have hH : ∀ g ∈ extent_i, ∃ h : g < Y.length, Y[g] ∈ sortedClasses Y := by
    intro g hg
    refine ⟨hvalid g hg, ?_⟩
    unfold sortedClasses
    rw [Finset.mem_sort]
    exact List.mem_toFinset.mpr (List.getElem_mem _)
  have hN : (sortedClasses Y).Nodup := Finset.sort_nodup _ _
  have hcount := count_partition Y (sortedClasses Y) hN extent_i hH
  unfold classProbabilities condProb
  have hdiv : ((sortedClasses Y).map (fun c =>
      ((extent_i.filter (fun g_i => Y.get? g_i = some c)).length : ℚ) /
        (extent_i.length : ℚ))).sum =
      ((sortedClasses Y).map (fun c =>
      ((extent_i.filter (fun g_i => Y.get? g_i = some c)).length : ℚ))).sum /
        (extent_i.length : ℚ) := by
    simp only [div_eq_mul_inv]
    exact List.sum_map_mul_right _ _ _
  rw [hdiv]
  have hcast : ((sortedClasses Y).map (fun c =>
      ((extent_i.filter (fun g_i => Y.get? g_i = some c)).length : ℚ))).sum =
      ((extent_i.length : ℕ) : ℚ) := by
    have h1 : ((sortedClasses Y).map (fun c =>
        ((extent_i.filter (fun g_i => Y.get? g_i = some c)).length : ℚ))) =
        ((sortedClasses Y).map (fun c =>
          (extent_i.filter (fun g_i => Y.get? g_i = some c)).length)).map Nat.cast := by
      rw [List.map_map]
      exact rfl
    rw [h1, ← Nat.cast_list_sum, hcount]
  rw [hcast, div_self]
  exact Nat.cast_ne_zero.mpr (Nat.pos_iff_ne_zero.mp (List.length_pos.mpr hext))

theorem calc_class_probabilities_pos {α : Type} [LinearOrder α] (Y : List α)
    (extent_i : List ℕ) (h : 0 < extent_i.length) :
    (DecisionLatticeClassifier.calc_concept_prediction_metrics Y extent_i).class_probabilities =
      some (classProbabilities Y extent_i) := by
  unfold DecisionLatticeClassifier.calc_concept_prediction_metrics
  rw [if_pos h]

/-- C7: for a concept with non-empty extent of valid object indices, the
stored class probabilities are present and sum to exactly one. -/
theorem claim_C7_probability_normalization {α : Type} [LinearOrder α] (Y : List α)
    (extent_i : List ℕ) (hext : extent_i ≠ []) (hvalid : ∀ g ∈ extent_i, g < Y.length) :
    ∃ probs,
      (DecisionLatticeClassifier.calc_concept_prediction_metrics Y
          extent_i).class_probabilities = some probs ∧
      probs.sum = 1 :=
  ⟨classProbabilities Y extent_i,
    calc_class_probabilities_pos Y extent_i (List.length_pos.mpr hext),
    classProbabilities_sum Y extent_i hext hvalid⟩

theorem claim_C7_probability_normalization_witness :
    ∃ probs,
      (DecisionLatticeClassifier.calc_concept_prediction_metrics
          ([0, 0, 1, 1] : List ℕ) [0, 1, 2, 3]).class_probabilities = some probs ∧
      probs.sum = 1 :=
  claim_C7_probability_normalization [0, 0, 1, 1] [0, 1, 2, 3] (by decide) (by decide)

/-! ### The classifier tie-break rule -/

theorem selectMaxClass_eval {α : Type} (class_names : List α) (p : ℚ) (ps : List ℚ) :
    selectMaxClass class_names (p :: ps) =
      some (match specTiedNames class_names (p :: ps) with
        | [c] => MPClass.single c
        | cs => MPClass.tied cs) := by
  have hmax : listMaxQ (p :: ps) = some (ps.foldl max p) := rfl
  have hfilter : specTiedNames class_names (p :: ps) =
      ((class_names.zip (p :: ps)).filter
        (fun cp => cp.2 = ps.foldl max p)).map Prod.fst := by
    unfold specTiedNames
    rw [hmax]
    congr 1
    apply List.filter_congr
    intro x hx
    simp
  rw [hfilter]
  rfl

theorem selectMaxClass_spec {α : Type} (class_names : List α) (probs : List ℚ) :
    (∀ c, specTiedNames class_names probs = [c] →
      selectMaxClass class_names probs = some (MPClass.single c)) ∧
    (probs ≠ [] → (specTiedNames class_names probs).length ≠ 1 →
      selectMaxClass class_names probs =
        some (MPClass.tied (specTiedNames class_names probs))) := by
  cases probs with
  | nil =>
    constructor
    · intro c hc
      exact absurd hc (by simp [specTiedNames])
    · intro h _
      exact absurd rfl h
  | cons p ps =>
    constructor
    · intro c hc
      rw [selectMaxClass_eval, hc]
    · intro _ hlen
      rw [selectMaxClass_eval]
      cases hT : specTiedNames class_names (p :: ps) with
      | nil => rfl
      | cons t ts =>
        cases ts with
        | nil => exact absurd (by rw [hT]; rfl) hlen
        | cons t2 ts2 => rfl

theorem zip_map_filter_fst {α : Type} (l : List α) (f : α → ℚ) (P : ℚ → Prop)
    [DecidablePred P] :
    ((l.zip (l.map f)).filter (fun cp => P cp.2)).map Prod.fst =
      l.filter (fun c => P (f c)) := by
  induction l with
  | nil => rfl
  | cons x xs ih =>
    simp only [List.map_cons, List.zip_cons_cons, List.filter_cons]
    by_cases h : P (f x)
    · rw [if_pos (by simpa using h), if_pos (by simpa using h)]
      simp only [List.map_cons]
      rw [ih]
    · rw [if_neg (by simpa using h), if_neg (by simpa using h)]
      exact ih

theorem specTied_bridge {α : Type} [LinearOrder α] (Y : List α) (extent_i : List ℕ) :
    specTiedNames (sortedClasses Y) (classProbabilities Y extent_i) =
      specTiedClasses Y extent_i := by
  unfold specTiedNames specTiedClasses classProbabilities
  exact zip_map_filter_fst (sortedClasses Y) (condProb Y extent_i)
    (fun q => some q = listMaxQ ((sortedClasses Y).map (condProb Y extent_i)))

theorem calc_most_probable_class_pos {α : Type} [LinearOrder α] (Y : List α)
    (extent_i : List ℕ) (h : 0 < extent_i.length) :
    (DecisionLatticeClassifier.calc_concept_prediction_metrics Y
        extent_i).most_probable_class =
      selectMaxClass (sortedClasses Y) (classProbabilities Y extent_i) := by
  unfold DecisionLatticeClassifier.calc_concept_prediction_metrics
  rw [if_pos h]

theorem classProbabilities_ne_nil {α : Type} [LinearOrder α] (Y : List α) (hY : Y ≠ [])
    (extent_i : List ℕ) : classProbabilities Y extent_i ≠ [] := by
  have hmem : ∃ y, y ∈ sortedClasses Y := by
    cases Y with
    | nil => exact absurd rfl hY
    | cons y ys =>
      refine ⟨y, ?_⟩
      unfold sortedClasses
      rw [Finset.mem_sort]
      exact List.mem_toFinset.mpr (List.mem_cons_self y ys)
  obtain ⟨y, hy⟩ := hmem
  unfold classProbabilities
  exact List.ne_nil_of_mem (List.mem_map_of_mem (condProb Y extent_i) hy)

/-! ### The averaged probability vector -/

theorem reduceOption_map_some_list (l : List ℚ) : (l.map some).reduceOption = l := by
  induction l with
  | nil => rfl
  | cons x xs ih => simp [List.reduceOption_cons_of_some, ih]

theorem foldl_min_const_nat (xs : List ℕ) (k : ℕ) :
    ∀ a, a = k → (∀ x ∈ xs, x = k) → xs.foldl min a = k := by
  induction xs with
  | nil => intro a ha _; exact ha
  | cons x xs ih =>
    intro a ha hxs
    simp only [List.foldl_cons]
    refine ih (min a x) ?_ (fun y hy => hxs y (List.mem_cons_of_mem x hy))
    rw [ha, hxs x (List.mem_cons_self x xs)]
    exact min_self k

theorem min_length_const (rows : List (List ℚ)) (k : ℕ) (hne : rows ≠ [])
    (hrows : ∀ row ∈ rows, row.length = k) :
    (rows.map List.length).min? = some k := by
  cases rows with
  | nil => exact absurd rfl hne
  | cons r rs =>
    show some ((rs.map List.length).foldl min r.length) = some k
    congr 1
    refine foldl_min_const_nat _ k _ (hrows r (List.mem_cons_self r rs)) ?_
    intro y hy
    obtain ⟨row, hrow, rfl⟩ := List.mem_map.mp hy
    exact hrows row (List.mem_cons_of_mem r hrow)

theorem zipCols_eq (predictions : List (List ℚ)) (k : ℕ) (hne : predictions ≠ [])
    (hrows : ∀ row ∈ predictions, row.length = k) :
    zipCols predictions =
      (List.range k).map (fun j => predictions.map (fun row => row.getD j 0)) := by
  unfold zipCols
  rw [min_length_const predictions k hne hrows]
  rfl

theorem avg_probs_eq (predictions : List (List ℚ)) (k : ℕ) (hne : predictions ≠ [])
    (hrows : ∀ row ∈ predictions, row.length = k) :
    DecisionLatticeClassifier.average_concepts_class_probabilities predictions =
      (specAvgVector k predictions).map some := by
  unfold DecisionLatticeClassifier.average_concepts_class_probabilities specAvgVector
  rw [zipCols_eq predictions k hne hrows, List.map_map, List.map_map]
  apply List.map_congr_left
  intro j _
  simp only [Function.comp]
  rw [if_pos (by rw [List.length_map]; exact List.length_pos.mpr hne)]
  rw [List.length_map]

theorem avg_predictions_eq {α : Type} (class_names : List α)
    (predictions : List (List ℚ)) (hne : predictions ≠ [])
    (hrows : ∀ row ∈ predictions, row.length = class_names.length) :
    DecisionLatticeClassifier.average_concepts_predictions class_names predictions =
      selectMaxClass class_names (specAvgVector class_names.length predictions) := by
  unfold DecisionLatticeClassifier.average_concepts_predictions
  rw [avg_probs_eq predictions class_names.length hne hrows]
  rw [if_pos (by simp [List.all_map])]
  rw [reduceOption_map_some_list]

/-- C6: during fit on a non-empty extent of valid indices, the stored
`most_probable_class` is the single maximizing class when exactly one class
attains the maximal conditional probability, and the full tied list
otherwise; prediction applies the identical rule to the averaged
probability vector of the traced concepts. -/
theorem claim_C6_tie_break {α : Type} [LinearOrder α] (Y : List α) (extent_i : List ℕ)
    (class_names : List α) (predictions : List (List ℚ))
    (hext : extent_i ≠ []) (hvalid : ∀ g ∈ extent_i, g < Y.length)
    (hpred : predictions ≠ [])
    (hrows : ∀ row ∈ predictions, row.length = class_names.length)
    (hnames : class_names ≠ []) :
    (∀ c, specTiedClasses Y extent_i = [c] →
      (DecisionLatticeClassifier.calc_concept_prediction_metrics Y
          extent_i).most_probable_class = some (MPClass.single c)) ∧
    ((specTiedClasses Y extent_i).length ≠ 1 →
      (DecisionLatticeClassifier.calc_concept_prediction_metrics Y
          extent_i).most_probable_class =
        some (MPClass.tied (specTiedClasses Y extent_i))) ∧
    (DecisionLatticeClassifier.average_concepts_predictions class_names predictions =
      selectMaxClass class_names (specAvgVector class_names.length predictions)) ∧
    (∀ c, specTiedNames class_names (specAvgVector class_names.length predictions) = [c] →
      DecisionLatticeClassifier.average_concepts_predictions class_names predictions =
        some (MPClass.single c)) ∧
    ((specTiedNames class_names (specAvgVector class_names.length predictions)).length ≠ 1 →
      DecisionLatticeClassifier.average_concepts_predictions class_names predictions =
        some (MPClass.tied (specTiedNames class_names
          (specAvgVector class_names.length predictions)))) := by
  have hY : Y ≠ [] := by
    obtain ⟨g, hg⟩ := List.exists_mem_of_ne_nil extent_i hext
    intro h
    rw [h] at hvalid
    exact absurd (hvalid g hg) (by simp)
  have hpos : 0 < extent_i.length := List.length_pos.mpr hext
  have hprobs_ne := classProbabilities_ne_nil Y hY extent_i
  refine ⟨?_, ?_, avg_predictions_eq class_names predictions hpred hrows, ?_, ?_⟩
  · intro c hc
    rw [calc_most_probable_class_pos Y extent_i hpos]
    exact (selectMaxClass_spec _ _).1 c (by rw [specTied_bridge]; exact hc)
  · intro hlen
    rw [calc_most_probable_class_pos Y extent_i hpos]
    have h2 := (selectMaxClass_spec (sortedClasses Y) (classProbabilities Y extent_i)).2
      hprobs_ne (by rw [specTied_bridge]; exact hlen)
    rw [h2, specTied_bridge]
  · intro c hc
    rw [avg_predictions_eq class_names predictions hpred hrows]
    exact (selectMaxClass_spec _ _).1 c hc
  · intro hlen
    have havg_ne : specAvgVector class_names.length predictions ≠ [] := by
      unfold specAvgVector
      exact List.ne_nil_of_mem (List.mem_map_of_mem _
        (List.mem_range.mpr (List.length_pos.mpr hnames)))
    rw [avg_predictions_eq class_names predictions hpred hrows]
    exact (selectMaxClass_spec _ _).2 havg_ne hlen

theorem sort_eval_nat (s : Finset ℕ) (l : List ℕ) (hfs : l.toFinset = s) (hnd : l.Nodup)
    (hs : List.Sorted (· ≤ ·) l) : s.sort (· ≤ ·) = l := by
  apply List.eq_of_perm_of_sorted ?_ (Finset.sort_sorted _ _) hs
  exact List.perm_of_nodup_nodup_toFinset_eq (Finset.sort_nodup _ _) hnd
    (by rw [Finset.sort_toFinset _ s, hfs])

theorem claim_C6_tie_break_witness :
    (DecisionLatticeClassifier.calc_concept_prediction_metrics ([0, 0, 1, 1] : List ℕ)
        [0, 1, 2, 3]).most_probable_class = some (MPClass.tied [0, 1]) := by
  have hsc : sortedClasses ([0, 0, 1, 1] : List ℕ) = [0, 1] :=
    sort_eval_nat _ _ (by decide) (by decide) (by decide)
  have hc0 : condProb ([0, 0, 1, 1] : List ℕ) [0, 1, 2, 3] 0 = 1 / 2 := by
    unfold condProb
    rw [show (([0, 1, 2, 3] : List ℕ).filter
      (fun g_i => ([0, 0, 1, 1] : List ℕ).get? g_i = some 0)).length = 2 from by decide]
    norm_num
  have hc1 : condProb ([0, 0, 1, 1] : List ℕ) [0, 1, 2, 3] 1 = 1 / 2 := by
    unfold condProb
    rw [show (([0, 1, 2, 3] : List ℕ).filter
      (fun g_i => ([0, 0, 1, 1] : List ℕ).get? g_i = some 1)).length = 2 from by decide]
    norm_num
  have hcp : classProbabilities ([0, 0, 1, 1] : List ℕ) [0, 1, 2, 3] = [1 / 2, 1 / 2] := by
    unfold classProbabilities
    rw [hsc, List.map_cons, List.map_cons, List.map_nil, hc0, hc1]
  have hmax : listMaxQ (classProbabilities ([0, 0, 1, 1] : List ℕ) [0, 1, 2, 3]) =
      some (1 / 2) := by
    rw [hcp]
    show some (max (1 / 2) (1 / 2) : ℚ) = some (1 / 2)
    rw [max_self]
  have hst : specTiedClasses ([0, 0, 1, 1] : List ℕ) [0, 1, 2, 3] = [0, 1] := by
    unfold specTiedClasses
    rw [hsc]
    simp [List.filter_cons, List.filter_nil, hc0, hc1, hmax]
  have h := (claim_C6_tie_break ([0, 0, 1, 1] : List ℕ) [0, 1, 2, 3] [0, 1]
    [[1 / 2, 1 / 2]] (by decide) (by decide) (by decide) (by decide) (by decide)).2.1
    (by rw [hst]; decide)
  rw [hst] at h
  exact h
